import Mathlib

/-!
Shallow embedding of the medical-image-processor component
(`MedicalImageProcessor` in the repository's main TSX source file):
the image registry, the processing-job orchestrator, the history
operations, the volume-visibility controller and the result viewer.

External inputs of the source (the `Math.random` id generator, the
`confirm` dialog answer, the `fetch('/scene')` outcome, the renderer
availability flag) are modelled as explicit parameters.  Effectful
handlers are modelled as pure state transformers that additionally
report their observable effects (`alert` calls, `loadVolumes` calls).
-/

/-- `type ImageFile = { id, name, selected }`. -/
structure ImageFile where
  id : String
  name : String
  selected : Bool
deriving DecidableEq

/-- `type ProcessingTool = { id, name, description }`. -/
structure ProcessingTool where
  id : String
  name : String
  description : String
deriving DecidableEq

/-- The fixed `processingTools` array of the component. -/
def processingTools : List ProcessingTool :=
  [⟨"segmentation", "Segmentation", "Segment different regions in the image"⟩,
   ⟨"registration", "Image Registration", "Align multiple images"⟩]

/-- `status: "pending" | "completed" | "failed"` of a history item. -/
inductive JobStatus where
  | pending
  | completed
  | failed
deriving DecidableEq

/-- The data of a result document (`result.data`): what the code inspects
is its `imageOptionsArray`; each option is kept opaque as a string. -/
structure DocData where
  imageOptionsArray : List String
deriving DecidableEq

/-- One renderer-side volume: its id and its opacity (the code only ever
writes the opacities `0` and `1`). -/
structure Volume where
  id : String
  opacity : Nat
deriving DecidableEq

/-- The renderer (Niivue) state visible to this component: its ordered
volume list and a count of `updateGLVolume` redraw calls. -/
structure NvState where
  volumes : List Volume
  redrawCount : Nat
deriving DecidableEq

/-- `ProcessingHistoryItem`: one job record. `nvDocument` is the snapshot
`nvCopy.json()` of the renderer taken at submission (modelled as the
renderer's volume list); `result`/`error` are set by the resolution. -/
structure HistoryItem where
  id : String
  timestamp : Nat
  nvDocument : List Volume
  toolName : String
  status : JobStatus
  result : Option DocData := none
  error : Option String := none
deriving DecidableEq

/-- Observable effects of one handler call: the `alert(...)` messages it
issued and the argument lists of its `nv.loadVolumes(...)` calls. -/
structure Effects where
  alerts : List String := []
  loadCalls : List (List String) := []
deriving DecidableEq

/-- The component's React state (`useState` hooks), plus the renderer
instance and the `nvRef.current` availability flag (initialised to the
global `nv` object and never reassigned in the source). -/
structure AppState where
  images : List ImageFile
  currentImageIndex : Option Nat
  selectedTool : Option String
  processingHistory : List HistoryItem
  nv : NvState
  nvPresent : Bool
deriving DecidableEq

/-- `toggleImageSelection(id)`: `setImages(images.map((img) =>
img.id === id ? { ...img, selected: !img.selected } : img))`.
The body contains no `alert` call, hence the empty effect record. -/
def toggleImageSelection (id : String) (s : AppState) : AppState × Effects :=
  ({ s with images :=
      s.images.map (fun img =>
        if img.id = id then { img with selected := !img.selected } else img) },
   {})

/-- JS truthiness of the `selectedTool` state (`string | null`):
`!selectedTool` is true exactly when it is `null` or the empty string. -/
def toolChosen : Option String → Bool
  | none => false
  | some t => !(t = "")

/-- JS `a || b` on an optional string `a` (`tool?.name || selectedTool`):
yields `b` when `a` is absent or empty. -/
def jsOrString : Option String → String → String
  | none, b => b
  | some a, b => if a = "" then b else a

/-- The registry indices of the unselected images, ascending, starting at
offset `k`: models `images.map((img, idx) => ({img, idx}))
.filter(({img}) => !img.selected)` before the `.reverse()`. -/
def unselIdx : List ImageFile → Nat → List Nat
  | [], _ => []
  | img :: rest, k =>
    if img.selected then unselIdx rest (k + 1) else k :: unselIdx rest (k + 1)

/-- The pruning index list of `handleProcessImages`: the unselected
registry indices, reversed (descending), as iterated by the `.forEach`. -/
def pruneIdxList (imgs : List ImageFile) : List Nat :=
  (unselIdx imgs 0).reverse

/-- `nv.removeVolumeByIndex(idx)` on the model: drop the volume at `idx`
(no-op when out of range, the renderer being external). -/
def removeVolumeByIndex (nv : NvState) (idx : Nat) : NvState :=
  { nv with volumes := nv.volumes.eraseIdx idx }

/-- The renderer after the submission-time pruning loop of
`handleProcessImages` (remove unselected volumes, in reverse order). -/
def pruneUnselected (imgs : List ImageFile) (nv : NvState) : NvState :=
  (pruneIdxList imgs).foldl removeVolumeByIndex nv

/-- `handleProcessImages`, with the generated random id and the current
time as explicit inputs.  Returns the new state, the effects, and the
id of the scheduled (`setTimeout`) resolution, if one was scheduled. -/
def handleProcessImages (randId : String) (now : Nat) (s : AppState) :
    AppState × Effects × Option String :=
  let selectedImages := s.images.filter (·.selected)
  if selectedImages.length = 0 ∨ toolChosen s.selectedTool = false then
    (s, { alerts := ["Please select at least one image and a processing tool"] }, none)
  else if s.nvPresent = false then
    (s, {}, none)
  else
    let nv' := pruneUnselected s.images s.nv
    let nvd := nv'.volumes
    let tool := processingTools.find? (fun t => s.selectedTool = some t.id)
    let toolName := jsOrString (tool.map (·.name)) (s.selectedTool.getD "")
    let item : HistoryItem :=
      { id := randId, timestamp := now, nvDocument := nvd,
        toolName := toolName, status := .pending }
    ({ s with processingHistory := item :: s.processingHistory, nv := nv' },
     {}, some randId)

/-- The record update performed by a resolution: the `try` branch sets
`status: "completed"` and `result`; the `catch` branch sets
`status: "failed"` and `error` (message modelled as an input string). -/
def applyOutcome (outcome : Except String DocData) (item : HistoryItem) : HistoryItem :=
  match outcome with
  | .ok doc => { item with status := .completed, result := some doc }
  | .error msg => { item with status := .failed, error := some msg }

/-- The `setProcessingHistory(prev => prev.map(item => item.id ===
historyItem.id ? {...update} : item))` of the asynchronous resolution. -/
def resolveJob (jid : String) (outcome : Except String DocData)
    (hist : List HistoryItem) : List HistoryItem :=
  hist.map (fun item => if item.id = jid then applyOutcome outcome item else item)

/-- `handleDeleteHistoryItem(id)`: `prev.filter(item => item.id !== id)`. -/
def handleDeleteHistoryItem (id : String) (hist : List HistoryItem) : List HistoryItem :=
  hist.filter (fun item => !(item.id = id))

/-- `handleClearHistory`: clears only when the `confirm` dialog (an
external input) is answered positively. -/
def handleClearHistory (confirmed : Bool) (hist : List HistoryItem) : List HistoryItem :=
  if confirmed then [] else hist

/-- `handleViewResult(item)`, with the `nvRef.current` availability as an
explicit input; returns only the observable effects (the renderer's
`loadVolumes` merge semantics are external). -/
def handleViewResult (nvPresent : Bool) (item : HistoryItem) : Effects :=
  match item.result with
  | none => { alerts := ["No result available for this item"] }
  | some r =>
    if nvPresent = false then
      { alerts := ["Niivue instance is not available"] }
    else
      let warn := match item.error with
        | some e => ["Process returned error message " ++ e]
        | none => []
      if r.imageOptionsArray.length = 0 then
        { alerts := warn ++ ["No image options available in the result"] }
      else
        { alerts := warn, loadCalls := [r.imageOptionsArray] }

/-- `nv.getVolumeIndexByID(id)`: index of the first volume with that id. -/
def getVolumeIndexByID (nv : NvState) (id : String) : Option Nat :=
  nv.volumes.findIdx? (fun v => v.id = id)

/-- `nv.setOpacity(volIdx, value)` on the model: update the opacity of
the volume at that index (no-op when the index is absent). -/
def setOpacityNv (nv : NvState) (idx : Option Nat) (op : Nat) : NvState :=
  match idx with
  | some i =>
    match nv.volumes[i]? with
    | some v => { nv with volumes := nv.volumes.set i { v with opacity := op } }
    | none => nv
  | none => nv

/-- The indexed iteration of `handleVisibility`: `images.map((img, index)
=> { if (index === id) setOpacity(getVolumeIndexByID(img.id), 1) else
setOpacity(getVolumeIndexByID(img.id), 0) })`, position `pos` onward. -/
def applyVis (active : Nat) (pos : Nat) (imgs : List ImageFile) (nv : NvState) : NvState :=
  match imgs with
  | [] => nv
  | img :: rest =>
    applyVis active (pos + 1) rest
      (setOpacityNv nv (getVolumeIndexByID nv img.id) (if pos = active then 1 else 0))

/-- `handleVisibility(id)`: set the active cursor, run the opacity loop,
then a single `nv.updateGLVolume()` redraw. -/
def handleVisibility (i : Nat) (s : AppState) : AppState :=
  let nv' := applyVis i 0 s.images s.nv
  { s with currentImageIndex := some i,
           nv := { nv' with redrawCount := nv'.redrawCount + 1 } }

/-- The opacity of the volume a given image id resolves to (via
`getVolumeIndexByID`), when it resolves at all. -/
def volumeOpacityById (nv : NvState) (id : String) : Option Nat :=
  (getVolumeIndexByID nv id).bind (fun k => (nv.volumes[k]?).map (·.opacity))

/-- `handleFileUpload` for a single loaded file: the renderer gains the
volume, the registry appends `{id, name, selected: false}`, and the
cursor is initialised when previously null. -/
def handleUpload (volId name : String) (s : AppState) : AppState :=
  { s with
    nv := { s.nv with volumes := s.nv.volumes ++ [⟨volId, 1⟩] },
    images := s.images ++ [⟨volId, name, false⟩],
    currentImageIndex :=
      match s.currentImageIndex with
      | none => some s.images.length
      | some k => some k }

/-- One user- or system-level event of a session.  `process` carries the
random id `Math.random().toString(36).substring(2, 9)` generated for
that click; `resolve` fires the `k`-th still-outstanding `setTimeout`
callback with the outcome of its `fetch('/scene')` round-trip. -/
inductive Event where
  | upload (volId name : String)
  | toggle (id : String)
  | chooseTool (t : Option String)
  | process (randId : String)
  | resolve (k : Nat) (outcome : Except String DocData)
  | deleteItem (id : String)
  | clearHistory (confirmed : Bool)
  | visibility (i : Nat)

/-- A session: the component state, the ids of the submissions whose
`setTimeout` callback has not fired yet (each fires exactly once), the
ids of every job record ever created, and a clock for timestamps. -/
structure SessState where
  app : AppState
  pendingJobs : List String
  createdIds : List String
  clock : Nat
deriving DecidableEq

/-- The single-threaded event step of the session. -/
def step (s : SessState) (e : Event) : SessState :=
  let s' : SessState :=
    match e with
    | .upload id name => { s with app := handleUpload id name s.app }
    | .toggle id => { s with app := (toggleImageSelection id s.app).1 }
    | .chooseTool t => { s with app := { s.app with selectedTool := t } }
    | .process randId =>
      let r := handleProcessImages randId s.clock s.app
      { s with app := r.1,
               pendingJobs := s.pendingJobs ++ r.2.2.toList,
               createdIds := s.createdIds ++ r.2.2.toList }
    | .resolve k outcome =>
      (match s.pendingJobs[k]? with
       | some jid =>
         let app' := { s.app with
           processingHistory := resolveJob jid outcome s.app.processingHistory }
         { s with app := app', pendingJobs := s.pendingJobs.eraseIdx k }
       | none => s)
    | .deleteItem id =>
      { s with app := { s.app with
          processingHistory := handleDeleteHistoryItem id s.app.processingHistory } }
    | .clearHistory c =>
      { s with app := { s.app with
          processingHistory := handleClearHistory c s.app.processingHistory } }
    | .visibility i => { s with app := handleVisibility i s.app }
  { s' with clock := s.clock + 1 }

/-- The initial session: no images, no tool, no history, empty renderer. -/
def initSess : SessState :=
  ⟨⟨[], none, none, [], ⟨[], 0⟩, true⟩, [], [], 0⟩

/-- Run a list of events from a given session state. -/
def runFrom (s : SessState) (evs : List Event) : SessState :=
  evs.foldl step s

/-- Run a list of events from the initial session state. -/
def run (evs : List Event) : SessState :=
  runFrom initSess evs

/-- The generator outputs consumed by the `process` events of a trace. -/
def processIds : List Event → List String
  | [] => []
  | .process r :: rest => r :: processIds rest
  | _ :: rest => processIds rest

/-- A job status is terminal when it is `completed` or `failed`. -/
def TerminalStatus (st : JobStatus) : Prop :=
  st = .completed ∨ st = .failed

instance : DecidablePred TerminalStatus := fun st => by
  unfold TerminalStatus; infer_instance

/-- Session invariant: outstanding callbacks are pairwise distinct and
registered, every record id was registered at creation, a terminal
record has no outstanding callback, and record ids are pairwise
distinct (granted fresh generator outputs, see the freshness side
conditions of the preservation lemmas). -/
def SessInv (s : SessState) : Prop :=
  s.pendingJobs.Nodup ∧
  (∀ j ∈ s.pendingJobs, j ∈ s.createdIds) ∧
  (∀ item ∈ s.app.processingHistory, item.id ∈ s.createdIds) ∧
  (∀ item ∈ s.app.processingHistory, TerminalStatus item.status →
    item.id ∉ s.pendingJobs) ∧
  (s.app.processingHistory.map (·.id)).Nodup

/-- Tracking predicate for one settled record: its id is registered, its
callback already fired, and every record bearing its id has its status. -/
def Settled (s : SessState) (iid : String) (ist : JobStatus) : Prop :=
  iid ∈ s.createdIds ∧
  iid ∉ s.pendingJobs ∧
  (∀ item ∈ s.app.processingHistory, item.id = iid → item.status = ist)

/-- A concrete event trace in which the id generator returns the same
string for two submissions (possible for `Math.random().toString(36)
.substring(2, 9)`, which enforces no uniqueness). -/
def dupTrace : List Event :=
  [.upload "a" "a.nii", .toggle "a", .chooseTool (some "segmentation"),
   .process "aaa", .process "aaa"]

/-- `dupTrace` extended by the two scheduled resolutions: the first
submission's callback succeeds, then the second submission's fails. -/
def dupTraceResolved : List Event :=
  dupTrace ++ [.resolve 0 (.ok ⟨["o"]⟩), .resolve 0 (.error "boom")]

/-- A concrete trace with distinct generator outputs. -/
def freshTrace : List Event :=
  [.upload "a" "a.nii", .toggle "a", .chooseTool (some "segmentation"),
   .process "aaa", .process "bbb", .resolve 0 (.ok ⟨["o"]⟩)]

/-- A state with one selected image and a chosen tool id that resolves to
no known processing tool. -/
def unknownToolState : AppState :=
  ⟨[⟨"a", "a.nii", true⟩], some 0, some "bogus", [], ⟨[⟨"a", 1⟩], 0⟩, true⟩

/-- A state with no image selected (validation must fail). -/
def noneSelectedState : AppState :=
  ⟨[⟨"a", "a.nii", false⟩], some 0, some "segmentation", [], ⟨[⟨"a", 1⟩], 0⟩, true⟩

/-- A sample pending job record. -/
def sampleItem : HistoryItem :=
  ⟨"x", 0, [], "Segmentation", .pending, none, none⟩

/-- A history whose first two records share one id (as two submissions
with colliding generator outputs produce). -/
def dupIdHist : List HistoryItem :=
  [⟨"x", 0, [], "t", .pending, none, none⟩,
   ⟨"x", 1, [], "t", .pending, none, none⟩,
   ⟨"y", 2, [], "t", .pending, none, none⟩]

/-- A history with pairwise-distinct record ids. -/
def freshIdHist : List HistoryItem :=
  [⟨"x", 0, [], "t", .pending, none, none⟩,
   ⟨"y", 1, [], "t", .pending, none, none⟩]

/-- A registry state used for the registry-operation claims. -/
def oneImageState : AppState :=
  ⟨[⟨"a", "a.nii", false⟩], none, none, [], ⟨[⟨"a", 1⟩], 0⟩, true⟩

/-- A completed record whose result carries an empty image list. -/
def emptyResultItem : HistoryItem :=
  ⟨"x", 0, [], "Segmentation", .completed, some ⟨[]⟩, none⟩

/-- A submission-ready state: three images with only "b" selected, a
chosen tool, and one renderer volume per image. -/
def threeImageState : AppState :=
  ⟨[⟨"a", "a.nii", false⟩, ⟨"b", "b.nii", true⟩, ⟨"c", "c.nii", false⟩],
   some 0, some "segmentation", [],
   ⟨[⟨"a", 1⟩, ⟨"b", 1⟩, ⟨"c", 1⟩], 0⟩, true⟩

/-- A two-image state whose renderer holds one volume per image, used
for the visibility claims. -/
def twoImageState : AppState :=
  ⟨[⟨"a", "a.nii", false⟩, ⟨"b", "b.nii", false⟩], none, none, [],
   ⟨[⟨"a", 5⟩, ⟨"b", 7⟩], 0⟩, true⟩

/-- Maps whose function fixes every member leave the list unchanged. -/
theorem listMapIdOn {α : Type} {f : α → α} {l : List α}
    (h : ∀ a ∈ l, f a = a) : l.map f = l := by
  calc l.map f = l.map id := List.map_congr_left h
  _ = l := List.map_id l

/-- C1, counterexample: with one selected image and the chosen tool id
"bogus" — which resolves to no known processing tool — `submit` does not
fail: it creates a job record (with the raw id as its tool name) and
raises no validation alert. -/
theorem C1_counterexample :
    (processingTools.all (fun t => !(t.id = "bogus"))) = true ∧
    (handleProcessImages "r1" 7 unknownToolState).1.processingHistory.length = 1 ∧
    (handleProcessImages "r1" 7 unknownToolState).2.1.alerts = [] ∧
    (handleProcessImages "r1" 7 unknownToolState).1.processingHistory.map (·.toolName)
      = ["bogus"] := by
  decide

/-- C1, amended: submission fails with the validation alert, creates no
record and mutates no state exactly when the selected-image set is empty
or no tool id is chosen (null or empty); the known-tool resolution of a
chosen id is not part of the validation. -/
theorem C1_amended (randId : String) (now : Nat) (s : AppState)
    (h : (s.images.filter (·.selected)).length = 0 ∨ toolChosen s.selectedTool = false) :
    (handleProcessImages randId now s).1 = s ∧
    (handleProcessImages randId now s).2.1.alerts =
      ["Please select at least one image and a processing tool"] ∧
    (handleProcessImages randId now s).2.2 = none := by
  unfold handleProcessImages
  rw [if_pos h]
  exact ⟨rfl, rfl, rfl⟩

/-- C1, witness: the amended theorem applied to the concrete state with
no selected image. -/
theorem C1_amended_witness :
    (handleProcessImages "r1" 0 noneSelectedState).1 = noneSelectedState ∧
    (handleProcessImages "r1" 0 noneSelectedState).2.1.alerts =
      ["Please select at least one image and a processing tool"] ∧
    (handleProcessImages "r1" 0 noneSelectedState).2.2 = none :=
  C1_amended "r1" 0 noneSelectedState (by decide)

/-- C3, counterexample: when the user answers the `confirm` dialog
negatively, `clearAll` does not empty a size-1 history. -/
theorem C3_counterexample :
    handleClearHistory false [sampleItem] = [sampleItem] ∧
    ([sampleItem] : List HistoryItem) ≠ [] := by
  decide

/-- C3, amended: for every prior history state, `clearAll` empties the
history collection whenever the user confirms the dialog, and leaves it
unchanged when the user declines. -/
theorem C3_amended (hist : List HistoryItem) :
    handleClearHistory true hist = [] ∧ handleClearHistory false hist = hist :=
  ⟨rfl, rfl⟩

/-- Deleting by an id absent from a history leaves it unchanged. -/
theorem filterNe_of_not_mem (jid : String) (hist : List HistoryItem)
    (h : jid ∉ hist.map (·.id)) :
    handleDeleteHistoryItem jid hist = hist := by
  apply List.filter_eq_self.mpr
  intro a ha
  simp only [Bool.not_eq_true', decide_eq_false_iff_not]
  intro hcontra
  exact h (hcontra ▸ List.mem_map_of_mem (·.id) ha)

/-- Under pairwise-distinct ids, deleting a present id removes exactly
one record. -/
theorem length_delete_of_nodup (jid : String) (hist : List HistoryItem)
    (hnodup : (hist.map (·.id)).Nodup) (hmem : jid ∈ hist.map (·.id)) :
    (handleDeleteHistoryItem jid hist).length + 1 = hist.length := by
  induction hist with
  | nil => simp at hmem
  | cons h t ih =>
    simp only [List.map_cons, List.nodup_cons] at hnodup
    rw [handleDeleteHistoryItem, List.filter_cons]
    rcases List.mem_cons.mp hmem with heq | hmemt
    · have hall := filterNe_of_not_mem jid t (by rw [heq]; exact hnodup.1)
      rw [handleDeleteHistoryItem] at hall
      rw [if_neg (by simp [heq.symm]), hall, List.length_cons]
    · have hne : ¬(h.id = jid) := fun hcontra => hnodup.1 (hcontra ▸ hmemt)
      rw [if_pos (by simp [hne])]
      have ht := ih hnodup.2 hmemt
      rw [handleDeleteHistoryItem] at ht
      simp only [List.length_cons]
      omega

/-- C5, counterexample: on a history in which two distinct records share
the id "x" (reachable, since the generator enforces no uniqueness),
`deleteRecord("x")` removes two records from a three-record history,
not exactly the one record with that id. -/
theorem C5_counterexample :
    (handleDeleteHistoryItem "x" dupIdHist).length = 1 ∧
    dupIdHist.length = 3 ∧
    dupIdHist[0]? ≠ dupIdHist[1]? := by
  decide

/-- C5, amended: `deleteRecord(id)` removes every record whose id equals
the given id — exactly one when record ids are pairwise distinct —
keeping the surviving records in their relative order (the result is a
sublist of the input). -/
theorem C5_amended (jid : String) (hist : List HistoryItem) (item : HistoryItem)
    (hnodup : (hist.map (·.id)).Nodup) (hmem : jid ∈ hist.map (·.id))
    (hitem : item ∈ hist) :
    (handleDeleteHistoryItem jid hist).Sublist hist ∧
    (handleDeleteHistoryItem jid hist).length + 1 = hist.length ∧
    (item ∈ handleDeleteHistoryItem jid hist ↔ ¬(item.id = jid)) := by
  refine ⟨List.filter_sublist hist, length_delete_of_nodup jid hist hnodup hmem, ?_⟩
  rw [handleDeleteHistoryItem, List.mem_filter]
  simp [hitem]

/-- C5, witness: the amended theorem applied to a concrete two-record
history with distinct ids, deleting the record with id "x". -/
theorem C5_amended_witness :
    (handleDeleteHistoryItem "x" freshIdHist).Sublist freshIdHist ∧
    (handleDeleteHistoryItem "x" freshIdHist).length + 1 = freshIdHist.length ∧
    (⟨"x", 0, [], "t", .pending, none, none⟩ ∈ handleDeleteHistoryItem "x" freshIdHist ↔
      ¬((⟨"x", 0, [], "t", .pending, none, none⟩ : HistoryItem).id = "x")) :=
  C5_amended "x" freshIdHist ⟨"x", 0, [], "t", .pending, none, none⟩
    (by decide) (by decide) (by decide)

/-- C7, counterexample: toggling an id absent from the registry performs
no mutation, but also signals nothing at all — the operation's complete
observable effect record is empty, so no `NotFoundError` is raised. -/
theorem C7_counterexample :
    (¬ ∃ img ∈ oneImageState.images, img.id = "zzz") ∧
    (toggleImageSelection "zzz" oneImageState).1 = oneImageState ∧
    (toggleImageSelection "zzz" oneImageState).2 = ({} : Effects) := by
  decide

/-- C7, amended: `toggleSelection(id)` flips the `selected` flag of every
image whose id matches (preserving its id and name and every other
entry, positions included), is a silent no-op when the id is absent
(no mutation, no error signal), and applied twice restores the
registry; it signals no error in any case. -/
theorem C7_amended (id : String) (s : AppState) :
    (toggleImageSelection id s).2 = ({} : Effects) ∧
    (id ∉ s.images.map (·.id) → (toggleImageSelection id s).1 = s) ∧
    (∀ i : Nat, (toggleImageSelection id s).1.images[i]? =
      (s.images[i]?).map (fun img =>
        if img.id = id then ⟨img.id, img.name, !img.selected⟩ else img)) ∧
    (toggleImageSelection id (toggleImageSelection id s).1).1.images = s.images := by
  refine ⟨rfl, ?_, ?_, ?_⟩
  · intro habs
    have himg : s.images.map (fun img =>
        if img.id = id then { img with selected := !img.selected } else img) = s.images := by
      apply listMapIdOn
      intro a ha
      rw [if_neg]
      intro hcontra
      exact habs (hcontra ▸ List.mem_map_of_mem (·.id) ha)
    show { s with images := _ } = s
    rw [himg]
  · intro i
    show (s.images.map _)[i]? = _
    rw [List.getElem?_map]
  · show (s.images.map _).map _ = s.images
    rw [List.map_map]
    apply listMapIdOn
    intro a _
    by_cases hc : a.id = id
    · cases a with
      | mk aid aname asel =>
        simp only at hc
        subst hc
        simp [Function.comp, Bool.not_not]
    · simp [Function.comp, hc]

/-- C7, witness: the amended theorem applied to the one-image registry
and the absent id "zzz". -/
theorem C7_amended_witness :
    (toggleImageSelection "zzz" oneImageState).2 = ({} : Effects) ∧
    (toggleImageSelection "zzz" oneImageState).1 = oneImageState ∧
    (toggleImageSelection "zzz" (toggleImageSelection "zzz" oneImageState).1).1.images =
      oneImageState.images := by
  have h := C7_amended "zzz" oneImageState
  exact ⟨h.1, h.2.1 (by decide), h.2.2.2⟩

/-- C8: a record whose result is present but whose `imageOptionsArray`
is empty never triggers `loadVolumes`, and (with the renderer available,
as it always is in the source) raises the empty-result alert. -/
theorem C8_viewResult_empty (item : HistoryItem) (r : DocData) (b : Bool)
    (h1 : item.result = some r) (h2 : r.imageOptionsArray = []) :
    (handleViewResult b item).loadCalls = [] ∧
    (b = true → "No image options available in the result" ∈ (handleViewResult b item).alerts) := by
  unfold handleViewResult
  rw [h1]
  cases b with
  | false => simp
  | true =>
    simp only [show ¬(true = false) from by simp, if_neg, Bool.false_eq_true]
    rw [h2]
    cases item.error <;> simp

/-- C8, witness: the theorem applied to a concrete completed record with
an empty result image list. -/
theorem C8_viewResult_empty_witness :
    (handleViewResult true emptyResultItem).loadCalls = [] ∧
    "No image options available in the result" ∈ (handleViewResult true emptyResultItem).alerts := by
  have h := C8_viewResult_empty emptyResultItem ⟨[]⟩ true rfl rfl
  exact ⟨h.1, h.2 rfl⟩

/-- C4, counterexample: after two submissions whose generated ids
collide (the generator enforces no uniqueness), one single resolution
replaces two distinct records, so not every other record is left
untouched. -/
theorem C4_counterexample :
    ((step (run dupTrace) (.resolve 0 (.ok ⟨["o"]⟩))).app.processingHistory[0]? ≠
      (run dupTrace).app.processingHistory[0]?) ∧
    ((step (run dupTrace) (.resolve 0 (.ok ⟨["o"]⟩))).app.processingHistory[1]? ≠
      (run dupTrace).app.processingHistory[1]?) ∧
    ((run dupTrace).app.processingHistory[0]? ≠ (run dupTrace).app.processingHistory[1]?) := by
  decide

/-- C4, amended: a resolution update preserves the history's length and
every position, leaves every record whose id differs from the resolving
job's id untouched in place, and — when record ids are pairwise
distinct — matches at most one position, which it replaces with the
resolved record. -/
theorem C4_amended (jid : String) (outcome : Except String DocData)
    (hist : List HistoryItem) (i j : Nat)
    (hnodup : (hist.map (·.id)).Nodup)
    (hi : i < hist.length) (hj : j < hist.length) :
    (resolveJob jid outcome hist).length = hist.length ∧
    (¬(hist.get ⟨i, hi⟩).id = jid →
      (resolveJob jid outcome hist)[i]? = hist[i]?) ∧
    ((hist.get ⟨i, hi⟩).id = jid → (hist.get ⟨j, hj⟩).id = jid → i = j) ∧
    ((hist.get ⟨i, hi⟩).id = jid →
      (resolveJob jid outcome hist)[i]? = some (applyOutcome outcome (hist.get ⟨i, hi⟩))) := by
  refine ⟨List.length_map hist _, ?_, ?_, ?_⟩
  · intro hne
    rw [resolveJob, List.getElem?_map, List.getElem?_eq_getElem hi]
    simp only [List.get_eq_getElem] at hne
    simp [hne]
  · intro hidi hidj
    simp only [List.get_eq_getElem] at hidi hidj
    have helem : hist[i] = hist[j] :=
      List.inj_on_of_nodup_map hnodup (List.getElem_mem hi) (List.getElem_mem hj)
        (by rw [hidi, hidj])
    have hfin := (List.Nodup.get_inj_iff (List.Nodup.of_map (·.id) hnodup)
      (i := ⟨i, hi⟩) (j := ⟨j, hj⟩)).mp (by simpa [List.get_eq_getElem] using helem)
    exact congrArg Fin.val hfin
  · intro hidi
    rw [resolveJob, List.getElem?_map, List.getElem?_eq_getElem hi]
    simp only [List.get_eq_getElem] at hidi ⊢
    simp [hidi]

/-- C4, witness: the amended theorem applied to a concrete two-record
history with distinct ids, resolving id "x" with a success outcome;
position 1 (id "y") is untouched. -/
theorem C4_amended_witness :
    (resolveJob "x" (.ok ⟨["o"]⟩) freshIdHist).length = freshIdHist.length ∧
    (resolveJob "x" (.ok ⟨["o"]⟩) freshIdHist)[1]? = freshIdHist[1]? :=
  ⟨(C4_amended "x" (.ok ⟨["o"]⟩) freshIdHist 1 1 (by decide) (by decide) (by decide)).1,
   (C4_amended "x" (.ok ⟨["o"]⟩) freshIdHist 1 1 (by decide) (by decide) (by decide)).2.1
     (by decide)⟩

/-- `submit` either rejects (state untouched, nothing scheduled) or
prepends a fresh pending record carrying the generated id and schedules
its resolution, leaving the registry unchanged. -/
theorem handleProcess_cases (randId : String) (now : Nat) (s : AppState) :
    ((handleProcessImages randId now s).1 = s ∧
     (handleProcessImages randId now s).2.2 = none) ∨
    ((handleProcessImages randId now s).2.2 = some randId ∧
     ∃ item : HistoryItem,
       (handleProcessImages randId now s).1.processingHistory =
         item :: s.processingHistory ∧
       item.id = randId ∧ item.status = .pending ∧
       (handleProcessImages randId now s).1.images = s.images) := by
  unfold handleProcessImages
  by_cases h1 : (s.images.filter (·.selected)).length = 0 ∨ toolChosen s.selectedTool = false
  · rw [if_pos h1]
    exact Or.inl ⟨rfl, rfl⟩
  · rw [if_neg h1]
    by_cases h2 : s.nvPresent = false
    · rw [if_pos h2]
      exact Or.inl ⟨rfl, rfl⟩
    · rw [if_neg h2]
      exact Or.inr ⟨rfl, _, rfl, rfl, rfl, rfl⟩

/-- A resolution outcome never changes a record's id. -/
theorem applyOutcome_id (outcome : Except String DocData) (item : HistoryItem) :
    (applyOutcome outcome item).id = item.id := by
  cases outcome <;> rfl

/-- A resolution update never changes the sequence of record ids. -/
theorem resolveJob_map_id (jid : String) (outcome : Except String DocData)
    (hist : List HistoryItem) :
    (resolveJob jid outcome hist).map (·.id) = hist.map (·.id) := by
  rw [resolveJob, List.map_map]
  apply List.map_congr_left
  intro a _
  by_cases hc : a.id = jid
  · simp [Function.comp, hc, applyOutcome_id]
  · simp [Function.comp, hc]

/-- Erasing the position of an element of a duplicate-free list removes
its only occurrence. -/
theorem not_mem_eraseIdx_of_nodup :
    ∀ (l : List String) (k : Nat) (jid : String), l.Nodup → l[k]? = some jid →
      jid ∉ l.eraseIdx k := by
  intro l
  induction l with
  | nil => intro k jid _ hk; simp at hk
  | cons a t ih =>
    intro k jid hnd hk
    rcases List.nodup_cons.mp hnd with ⟨ha, ht⟩
    cases k with
    | zero =>
      simp only [List.getElem?_cons_zero, Option.some.injEq] at hk
      rw [List.eraseIdx_cons_zero, ← hk]
      exact ha
    | succ k =>
      simp only [List.getElem?_cons_succ] at hk
      rw [List.eraseIdx_cons_succ]
      intro hmem
      rcases List.mem_cons.mp hmem with heq | hmem2
      · rcases List.getElem?_eq_some_iff.mp hk with ⟨hlt, hget⟩
        exact ha (heq ▸ hget ▸ List.getElem_mem hlt)
      · exact ih k jid ht hk hmem2

/-- `processIds` distributes over `::`. -/
theorem processIds_cons (e : Event) (rest : List Event) :
    processIds (e :: rest) = processIds [e] ++ processIds rest := by
  cases e <;> rfl

/-- `processIds` distributes over `++`. -/
theorem processIds_append (evs₁ evs₂ : List Event) :
    processIds (evs₁ ++ evs₂) = processIds evs₁ ++ processIds evs₂ := by
  induction evs₁ with
  | nil => rfl
  | cons e rest ih =>
    rw [List.cons_append, processIds_cons, ih, processIds_cons e rest, List.append_assoc]

/-- One step only appends to the session's created-id log, and what it
appends is drawn from the generator output of that step's event. -/
theorem createdIds_step (s : SessState) (e : Event) :
    ∃ u, (step s e).createdIds = s.createdIds ++ u ∧ u.Sublist (processIds [e]) := by
  cases e with
  | process randId =>
    refine ⟨(handleProcessImages randId s.clock s.app).2.2.toList, rfl, ?_⟩
    rcases handleProcess_cases randId s.clock s.app with ⟨_, hnone⟩ | ⟨hsome, _⟩
    · rw [hnone]
      exact List.nil_sublist _
    · rw [hsome]
      simp [processIds]
  | resolve k outcome =>
    refine ⟨[], ?_, List.nil_sublist _⟩
    show (match s.pendingJobs[k]? with
      | some jid => _ | none => s : SessState).createdIds = _
    cases s.pendingJobs[k]? <;> simp
  | upload volId name => exact ⟨[], by simp [step], List.nil_sublist _⟩
  | toggle id => exact ⟨[], by simp [step], List.nil_sublist _⟩
  | chooseTool t => exact ⟨[], by simp [step], List.nil_sublist _⟩
  | deleteItem id => exact ⟨[], by simp [step], List.nil_sublist _⟩
  | clearHistory c => exact ⟨[], by simp [step], List.nil_sublist _⟩
  | visibility i => exact ⟨[], by simp [step], List.nil_sublist _⟩

/-- One step preserves the session invariant, provided the generator
output consumed by a `process` event is fresh. -/
theorem sessInv_step (s : SessState) (e : Event)
    (hInv : SessInv s)
    (hfresh : ∀ r, e = .process r → r ∉ s.createdIds) :
    SessInv (step s e) := by
  unfold SessInv at hInv ⊢
  obtain ⟨hnd, hpc, hhc, htp, hhn⟩ := hInv
  cases e with
  | upload volId name => exact ⟨hnd, hpc, hhc, htp, hhn⟩
  | toggle id => exact ⟨hnd, hpc, hhc, htp, hhn⟩
  | chooseTool t => exact ⟨hnd, hpc, hhc, htp, hhn⟩
  | visibility i => exact ⟨hnd, hpc, hhc, htp, hhn⟩
  | process randId =>
    have hfr : randId ∉ s.createdIds := hfresh randId rfl
    rcases handleProcess_cases randId s.clock s.app with
      ⟨happ, hnone⟩ | ⟨hsome, item, hhist, hid, hstat, _⟩
    · simp only [step, hnone, Option.toList_none, List.append_nil, happ]
      exact ⟨hnd, hpc, hhc, htp, hhn⟩
    · simp only [step, hsome, Option.toList_some]
      rw [hhist]
      have hidsub : ∀ x ∈ s.createdIds, x ∈ s.createdIds ++ [randId] :=
        fun x hx => List.mem_append_left _ hx
      refine ⟨?_, ?_, ?_, ?_, ?_⟩
      · refine List.nodup_append.mpr ⟨hnd, List.nodup_singleton _, ?_⟩
        intro a ha hb
        rw [List.mem_singleton] at hb
        subst hb
        exact hfr (hpc a ha)
      · intro j hj
        rcases List.mem_append.mp hj with hj1 | hj2
        · exact List.mem_append_left _ (hpc j hj1)
        · exact List.mem_append_right _ hj2
      · intro it hit
        rcases List.mem_cons.mp hit with heq | hit2
        · subst heq
          rw [hid]
          exact List.mem_append_right _ (List.mem_singleton.mpr rfl)
        · exact hidsub _ (hhc it hit2)
      · intro it hit hterm
        rcases List.mem_cons.mp hit with heq | hit2
        · subst heq
          rw [hstat] at hterm
          simp [TerminalStatus] at hterm
        · intro hm
          rcases List.mem_append.mp hm with hm1 | hm2
          · exact htp it hit2 hterm hm1
          · rw [List.mem_singleton] at hm2
            exact hfr (hm2 ▸ hhc it hit2)
      · simp only [List.map_cons]
        refine List.nodup_cons.mpr ⟨?_, hhn⟩
        rw [hid]
        intro hmemid
        rcases List.mem_map.mp hmemid with ⟨it0, hit0, hideq⟩
        exact hfr (hideq ▸ hhc it0 hit0)
  | resolve k outcome =>
    cases hk : s.pendingJobs[k]? with
    | none =>
      simp only [step, hk]
      exact ⟨hnd, hpc, hhc, htp, hhn⟩
    | some jid =>
      simp only [step, hk]
      have hjid_not : jid ∉ s.pendingJobs.eraseIdx k :=
        not_mem_eraseIdx_of_nodup _ k jid hnd hk
      refine ⟨List.Nodup.sublist (List.eraseIdx_sublist _ k) hnd, ?_, ?_, ?_, ?_⟩
      · intro j hj
        exact hpc j (List.Sublist.mem hj (List.eraseIdx_sublist _ k))
      · intro it hit
        rcases List.mem_map.mp hit with ⟨it0, hit0, heq⟩
        have hsame : it.id = it0.id := by
          rw [← heq]
          by_cases hc : it0.id = jid
          · simp [hc, applyOutcome_id]
          · simp [hc]
        rw [hsame]
        exact hhc it0 hit0
      · intro it hit hterm
        rcases List.mem_map.mp hit with ⟨it0, hit0, heq⟩
        by_cases hc : it0.id = jid
        · have hidv : it.id = jid := by
            rw [← heq]
            simp [hc, applyOutcome_id]
          rw [hidv]
          exact hjid_not
        · have heq2 : it = it0 := by
            rw [← heq]
            simp [hc]
          subst heq2
          intro hm
          exact htp it hit0 hterm (List.Sublist.mem hm (List.eraseIdx_sublist _ k))
      · rw [resolveJob_map_id]
        exact hhn
  | deleteItem id =>
    simp only [step, handleDeleteHistoryItem]
    refine ⟨hnd, hpc, ?_, ?_, ?_⟩
    · intro it hit
      exact hhc it (List.mem_filter.mp hit).1
    · intro it hit hterm
      exact htp it (List.mem_filter.mp hit).1 hterm
    · exact List.Nodup.sublist (List.Sublist.map _ (List.filter_sublist _)) hhn
  | clearHistory c =>
    cases c with
    | true =>
      simp only [step, handleClearHistory, if_pos]
      exact ⟨hnd, hpc, by simp, by simp, by simp⟩
    | false =>
      simp only [step, handleClearHistory]
      exact ⟨hnd, hpc, hhc, htp, hhn⟩

/-- One step preserves the settledness of a record whose resolution has
already fired, provided `process` events consume fresh generator
outputs. -/
theorem settled_step (s : SessState) (e : Event) (iid : String) (ist : JobStatus)
    (hS : Settled s iid ist)
    (hfresh : ∀ r, e = .process r → r ∉ s.createdIds) :
    Settled (step s e) iid ist := by
  unfold Settled at hS ⊢
  obtain ⟨hcr, hnp, hst⟩ := hS
  cases e with
  | upload volId name => exact ⟨hcr, hnp, hst⟩
  | toggle id => exact ⟨hcr, hnp, hst⟩
  | chooseTool t => exact ⟨hcr, hnp, hst⟩
  | visibility i => exact ⟨hcr, hnp, hst⟩
  | process randId =>
    have hfr : randId ∉ s.createdIds := hfresh randId rfl
    have hne : randId ≠ iid := fun hcontra => hfr (hcontra ▸ hcr)
    rcases handleProcess_cases randId s.clock s.app with
      ⟨happ, hnone⟩ | ⟨hsome, item, hhist, hid, _, _⟩
    · simp only [step, hnone, Option.toList_none, List.append_nil, happ]
      exact ⟨hcr, hnp, hst⟩
    · simp only [step, hsome, Option.toList_some]
      rw [hhist]
      refine ⟨List.mem_append_left _ hcr, ?_, ?_⟩
      · intro hm
        rcases List.mem_append.mp hm with hm1 | hm2
        · exact hnp hm1
        · rw [List.mem_singleton] at hm2
          exact hne hm2.symm
      · intro it hit hitid
        rcases List.mem_cons.mp hit with heq | hit2
        · rw [heq] at hitid
          exact absurd (hid.symm.trans hitid) hne
        · exact hst it hit2 hitid
  | resolve k outcome =>
    cases hk : s.pendingJobs[k]? with
    | none =>
      simp only [step, hk]
      exact ⟨hcr, hnp, hst⟩
    | some jid =>
      simp only [step, hk]
      have hjid_mem : jid ∈ s.pendingJobs := by
        rcases List.getElem?_eq_some_iff.mp hk with ⟨hlt, hget⟩
        exact hget ▸ List.getElem_mem hlt
      have hjne : jid ≠ iid := fun hcontra => hnp (hcontra ▸ hjid_mem)
      refine ⟨hcr, ?_, ?_⟩
      · intro hm
        exact hnp (List.Sublist.mem hm (List.eraseIdx_sublist _ k))
      · intro it hit hitid
        rcases List.mem_map.mp hit with ⟨it0, hit0, heq⟩
        by_cases hc : it0.id = jid
        · have : it.id = jid := by
            rw [← heq]
            simp [hc, applyOutcome_id]
          exact absurd (this.symm.trans hitid) hjne
        · have heq2 : it = it0 := by
            rw [← heq]
            simp [hc]
          subst heq2
          exact hst it hit0 hitid
  | deleteItem id =>
    simp only [step, handleDeleteHistoryItem]
    refine ⟨hcr, hnp, ?_⟩
    intro it hit hitid
    exact hst it (List.mem_filter.mp hit).1 hitid
  | clearHistory c =>
    cases c with
    | true =>
      simp only [step, handleClearHistory, if_pos]
      exact ⟨hcr, hnp, by simp⟩
    | false =>
      simp only [step, handleClearHistory]
      exact ⟨hcr, hnp, hst⟩

/-- Over a whole run, the created-id log only grows, by a sublist of the
trace's generator outputs. -/
theorem createdIds_runFrom (evs : List Event) :
    ∀ s : SessState, ∃ t, (runFrom s evs).createdIds = s.createdIds ++ t ∧
      t.Sublist (processIds evs) := by
  induction evs with
  | nil => exact fun s => ⟨[], (List.append_nil _).symm, List.nil_sublist _⟩
  | cons e rest ih =>
    intro s
    rcases createdIds_step s e with ⟨u, hu, husub⟩
    rcases ih (step s e) with ⟨t, ht, htsub⟩
    refine ⟨u ++ t, ?_, ?_⟩
    · rw [show runFrom s (e :: rest) = runFrom (step s e) rest from rfl, ht, hu,
        List.append_assoc]
    · rw [processIds_cons]
      exact List.Sublist.append husub htsub

/-- Freshness of the next generator output, extracted from global
distinctness of the consumed prefix and the upcoming outputs. -/
theorem fresh_of_nodup (s : SessState) (e : Event) (rest : List Event)
    (hnd : (s.createdIds ++ processIds (e :: rest)).Nodup) :
    ∀ r, e = .process r → r ∉ s.createdIds := by
  intro r he
  subst he
  have hdisj := List.disjoint_of_nodup_append hnd
  intro hmem
  exact hdisj hmem (by simp [processIds])

/-- The distinctness hypothesis survives one step. -/
theorem nodup_thread_step (s : SessState) (e : Event) (rest : List Event)
    (hnd : (s.createdIds ++ processIds (e :: rest)).Nodup) :
    ((step s e).createdIds ++ processIds rest).Nodup := by
  rcases createdIds_step s e with ⟨u, hu, husub⟩
  rw [hu, List.append_assoc]
  rw [processIds_cons] at hnd
  exact List.Nodup.sublist
    (List.Sublist.append_left (List.Sublist.append_right husub _) _) hnd

/-- The session invariant holds after any run whose consumed and
upcoming generator outputs are globally distinct. -/
theorem sessInv_runFrom (evs : List Event) :
    ∀ s : SessState, SessInv s → (s.createdIds ++ processIds evs).Nodup →
      SessInv (runFrom s evs) := by
  induction evs with
  | nil => exact fun s hInv _ => hInv
  | cons e rest ih =>
    intro s hInv hnd
    exact ih (step s e) (sessInv_step s e hInv (fresh_of_nodup s e rest hnd))
      (nodup_thread_step s e rest hnd)

/-- Settledness persists over any run whose consumed and upcoming
generator outputs are globally distinct. -/
theorem settled_runFrom (evs : List Event) :
    ∀ (s : SessState) (iid : String) (ist : JobStatus), Settled s iid ist →
      (s.createdIds ++ processIds evs).Nodup → Settled (runFrom s evs) iid ist := by
  induction evs with
  | nil => exact fun _ _ _ hS _ => hS
  | cons e rest ih =>
    intro s iid ist hS hnd
    exact ih (step s e) iid ist (settled_step s e iid ist hS (fresh_of_nodup s e rest hnd))
      (nodup_thread_step s e rest hnd)

/-- The initial session satisfies the invariant. -/
theorem sessInv_initSess : SessInv initSess := by
  refine ⟨List.nodup_nil, ?_, ?_, ?_, List.nodup_nil⟩ <;> simp [initSess]

/-- C2, counterexample: when the id generator returns the same string
for two submissions (it enforces no uniqueness), the record created by
the first submission is `completed` after the first resolution and then
`failed` after the second submission's resolution — a terminal status
changes again, on a legal session run in which each scheduled callback
fires exactly once. -/
theorem C2_counterexample :
    ((run (dupTrace ++ [.resolve 0 (.ok ⟨["o"]⟩)])).app.processingHistory[1]?.map
      (·.status) = some .completed) ∧
    ((run dupTraceResolved).app.processingHistory[1]?.map (·.status) = some .failed) ∧
    ((run (dupTrace ++ [.resolve 0 (.ok ⟨["o"]⟩)])).app.processingHistory[1]?.map (·.id) =
      (run dupTraceResolved).app.processingHistory[1]?.map (·.id)) := by
  decide

/-- C2, amended: provided the generated submission ids of the session
are pairwise distinct, every job record is created with status
`pending` (prepended to the history) and, once its status is terminal
(`completed` or `failed`), every record bearing its id keeps exactly
that status for the rest of the session, across any number of
outstanding submissions resolving in any order. -/
theorem C2_amended (evs₁ evs₂ : List Event) (item item' : HistoryItem)
    (s : SessState) (randId : String)
    (hnd : (processIds (evs₁ ++ evs₂)).Nodup)
    (hmem : item ∈ (run evs₁).app.processingHistory)
    (hterm : TerminalStatus item.status)
    (hmem' : item' ∈ (run (evs₁ ++ evs₂)).app.processingHistory)
    (hid : item'.id = item.id) :
    item'.status = item.status ∧
    ((step s (.process randId)).app.processingHistory = s.app.processingHistory ∨
     (((step s (.process randId)).app.processingHistory).head?.map (·.status) =
        some .pending ∧
      ((step s (.process randId)).app.processingHistory).tail =
        s.app.processingHistory)) := by
  constructor
  · rw [processIds_append] at hnd
    have hnd₁ : (initSess.createdIds ++ processIds evs₁).Nodup := by
      show (([] : List String) ++ processIds evs₁).Nodup
      rw [List.nil_append]
      exact (List.nodup_append.mp hnd).1
    have hInv1 : SessInv (run evs₁) :=
      sessInv_runFrom evs₁ initSess sessInv_initSess hnd₁
    unfold SessInv at hInv1
    obtain ⟨_, _, hhc, htp, hhn⟩ := hInv1
    have hSettle : Settled (run evs₁) item.id item.status := by
      refine ⟨hhc item hmem, htp item hmem hterm, ?_⟩
      intro it hit hitid
      have heq : it = item := List.inj_on_of_nodup_map hhn hit hmem hitid
      rw [heq]
    have hnd₂ : ((run evs₁).createdIds ++ processIds evs₂).Nodup := by
      rcases createdIds_runFrom evs₁ initSess with ⟨t, ht, htsub⟩
      show ((runFrom initSess evs₁).createdIds ++ processIds evs₂).Nodup
      rw [ht]
      show (([] : List String) ++ t ++ processIds evs₂).Nodup
      rw [List.nil_append]
      exact List.Nodup.sublist (List.Sublist.append_right htsub _) hnd
    have hrunapp : run (evs₁ ++ evs₂) = runFrom (run evs₁) evs₂ := by
      show (evs₁ ++ evs₂).foldl step initSess = _
      rw [List.foldl_append]
      rfl
    rw [hrunapp] at hmem'
    exact (settled_runFrom evs₂ (run evs₁) item.id item.status hSettle hnd₂).2.2
      item' hmem' hid
  · rcases handleProcess_cases randId s.clock s.app with
      ⟨happ, _⟩ | ⟨_, it0, hhist, _, hstat, _⟩
    · left
      show (handleProcessImages randId s.clock s.app).1.processingHistory = _
      rw [happ]
    · right
      constructor
      · show ((handleProcessImages randId s.clock s.app).1.processingHistory.head?.map
          (·.status)) = some .pending
        rw [hhist]
        simp [hstat]
      · show ((handleProcessImages randId s.clock s.app).1.processingHistory.tail) = _
        rw [hhist]
        rfl

/-- C2, witness: the amended theorem applied to a concrete session in
which the submission "aaa" has completed: its record keeps status
`completed` across a further submission and a failing resolution, and a
submission step either rejects or prepends a pending record. -/
theorem C2_amended_witness :
    ((⟨"aaa", 3, [⟨"a", 1⟩], "Segmentation", .completed, some ⟨["o"]⟩, none⟩ :
        HistoryItem).status =
      (⟨"aaa", 3, [⟨"a", 1⟩], "Segmentation", .completed, some ⟨["o"]⟩, none⟩ :
        HistoryItem).status) ∧
    ((step initSess (.process "r")).app.processingHistory =
        initSess.app.processingHistory ∨
     (((step initSess (.process "r")).app.processingHistory).head?.map (·.status) =
        some .pending ∧
      ((step initSess (.process "r")).app.processingHistory).tail =
        initSess.app.processingHistory)) :=
  C2_amended freshTrace [.process "ccc", .resolve 0 (.error "x")]
    ⟨"aaa", 3, [⟨"a", 1⟩], "Segmentation", .completed, some ⟨["o"]⟩, none⟩
    ⟨"aaa", 3, [⟨"a", 1⟩], "Segmentation", .completed, some ⟨["o"]⟩, none⟩
    initSess "r" (by decide) (by decide) (by decide) (by decide) (by decide)

/-- C6, counterexample: a session with two submissions whose generated
ids collide creates two distinct job records bearing the same id, so
record creation does not maintain id uniqueness. -/
theorem C6_counterexample :
    (run dupTrace).app.processingHistory.length = 2 ∧
    ((run dupTrace).app.processingHistory[0]?.map (·.id) =
      (run dupTrace).app.processingHistory[1]?.map (·.id)) ∧
    (run dupTrace).app.processingHistory[0]? ≠ (run dupTrace).app.processingHistory[1]? := by
  decide

/-- C6, amended: whenever the generator outputs consumed by a session's
submissions are pairwise distinct, the ids of all job records ever
created are pairwise distinct (so are the ids in the current history,
and every record's id is one of the created ids); creation itself
performs no uniqueness enforcement. -/
theorem C6_amended (evs : List Event) (item : HistoryItem)
    (hnd : (processIds evs).Nodup)
    (hmem : item ∈ (run evs).app.processingHistory) :
    (run evs).createdIds.Nodup ∧
    ((run evs).app.processingHistory.map (·.id)).Nodup ∧
    item.id ∈ (run evs).createdIds := by
  have hnd' : (initSess.createdIds ++ processIds evs).Nodup := by
    show (([] : List String) ++ processIds evs).Nodup
    rw [List.nil_append]
    exact hnd
  have hInv := sessInv_runFrom evs initSess sessInv_initSess hnd'
  unfold SessInv at hInv
  obtain ⟨_, _, hhc, _, hhn⟩ := hInv
  refine ⟨?_, hhn, hhc item hmem⟩
  rcases createdIds_runFrom evs initSess with ⟨t, ht, htsub⟩
  show (runFrom initSess evs).createdIds.Nodup
  rw [ht]
  show (([] : List String) ++ t).Nodup
  rw [List.nil_append]
  exact List.Nodup.sublist htsub hnd

/-- C6, witness: the amended theorem applied to a concrete session with
distinct generator outputs "aaa" and "bbb". -/
theorem C6_amended_witness :
    (run freshTrace).createdIds.Nodup ∧
    ((run freshTrace).app.processingHistory.map (·.id)).Nodup ∧
    (⟨"aaa", 3, [⟨"a", 1⟩], "Segmentation", .completed, some ⟨["o"]⟩, none⟩ :
      HistoryItem).id ∈ (run freshTrace).createdIds :=
  C6_amended freshTrace
    ⟨"aaa", 3, [⟨"a", 1⟩], "Segmentation", .completed, some ⟨["o"]⟩, none⟩
    (by decide) (by decide)

/-- Unselected-index lists from consecutive offsets are shifts of each
other. -/
theorem unselIdx_shift (imgs : List ImageFile) :
    ∀ k : Nat, unselIdx imgs (k + 1) = (unselIdx imgs k).map (· + 1) := by
  induction imgs with
  | nil => intro k; rfl
  | cons img rest ih =>
    intro k
    cases hs : img.selected <;> simp [unselIdx, hs, ih]

/-- Head decomposition of the pruning index list. -/
theorem pruneIdxList_cons (a : ImageFile) (as : List ImageFile) :
    pruneIdxList (a :: as) =
      (pruneIdxList as).map (· + 1) ++ (if a.selected then [] else [0]) := by
  unfold pruneIdxList
  cases hs : a.selected <;>
    simp [unselIdx, hs, unselIdx_shift, List.map_reverse, List.reverse_cons]

/-- Erasing only shifted (positive) indices never touches the head. -/
theorem foldl_eraseIdx_shift {α : Type} (idxs : List Nat) :
    ∀ (v : α) (vs : List α),
      ((idxs.map (· + 1)).foldl List.eraseIdx (v :: vs)) =
        v :: idxs.foldl List.eraseIdx vs := by
  induction idxs with
  | nil => intro v vs; rfl
  | cons i rest ih =>
    intro v vs
    simp only [List.map_cons, List.foldl_cons, List.eraseIdx_cons_succ]
    exact ih v (vs.eraseIdx i)

/-- The renderer-level pruning fold is the list-level fold on volumes
and never redraws. -/
theorem pruneFold_volumes (idxs : List Nat) :
    ∀ nv : NvState, (idxs.foldl removeVolumeByIndex nv).volumes =
        idxs.foldl List.eraseIdx nv.volumes ∧
      (idxs.foldl removeVolumeByIndex nv).redrawCount = nv.redrawCount := by
  induction idxs with
  | nil => intro nv; exact ⟨rfl, rfl⟩
  | cons i rest ih =>
    intro nv
    simp only [List.foldl_cons]
    exact ih (removeVolumeByIndex nv i)

/-- The submission-time pruning loop keeps exactly the volumes at the
positions of the selected images, in order, whenever the renderer holds
one volume per registry entry. -/
theorem prune_keeps_selected :
    ∀ (imgs : List ImageFile) (vols : List Volume), vols.length = imgs.length →
      (pruneIdxList imgs).foldl List.eraseIdx vols =
        ((imgs.zip vols).filter (fun p => p.1.selected)).map (·.2) := by
  intro imgs
  induction imgs with
  | nil =>
    intro vols hlen
    cases vols with
    | nil => rfl
    | cons v vs => simp at hlen
  | cons a as ih =>
    intro vols hlen
    cases vols with
    | nil => simp at hlen
    | cons v vs =>
      simp only [List.length_cons, Nat.succ.injEq] at hlen
      rw [pruneIdxList_cons, List.foldl_append, foldl_eraseIdx_shift]
      by_cases hs : a.selected
      · simp only [hs, if_pos, List.foldl_nil, List.zip_cons_cons, List.filter_cons,
          decide_eq_true_eq]
        rw [ih vs hlen]
        simp [hs]
      · simp only [hs, Bool.false_eq_true, if_neg, List.foldl_cons, List.eraseIdx_cons_zero,
          List.foldl_nil, List.zip_cons_cons, List.filter_cons]
        rw [ih vs hlen]
        simp [hs]

/-- C10: a submission that passes validation leaves the Image Registry
(entries, order, ids, names, selection flags) and the rest of the
component state unchanged, while the unselected images' volumes are
removed from the live renderer: when the renderer held one volume per
registry entry, only the selected images' volumes remain afterwards. -/
theorem C10_submit_registry_frame (randId : String) (now : Nat) (s : AppState)
    (hsel : ¬(s.images.filter (·.selected)).length = 0)
    (htool : toolChosen s.selectedTool = true)
    (hnv : s.nvPresent = true) :
    (handleProcessImages randId now s).1.images = s.images ∧
    (handleProcessImages randId now s).1.currentImageIndex = s.currentImageIndex ∧
    (handleProcessImages randId now s).1.selectedTool = s.selectedTool ∧
    (s.nv.volumes.length = s.images.length →
      (handleProcessImages randId now s).1.nv.volumes =
        ((s.images.zip s.nv.volumes).filter (fun p => p.1.selected)).map (·.2)) := by
  unfold handleProcessImages
  rw [if_neg, if_neg]
  · refine ⟨rfl, rfl, rfl, ?_⟩
    intro hlen
    show (pruneUnselected s.images s.nv).volumes = _
    rw [pruneUnselected, (pruneFold_volumes _ s.nv).1]
    exact prune_keeps_selected s.images s.nv.volumes hlen
  · rw [hnv]
    decide
  · intro hor
    rcases hor with hl | hr
    · exact hsel hl
    · rw [htool] at hr
      simp at hr

/-- C10, witness: the frame theorem applied to a concrete three-image
state with only "b" selected; afterwards the registry still lists "a"
and "c" although only the volume of "b" remains in the renderer. -/
theorem C10_submit_registry_frame_witness :
    (handleProcessImages "r1" 0 threeImageState).1.images = threeImageState.images ∧
    (handleProcessImages "r1" 0 threeImageState).1.nv.volumes =
      ((threeImageState.images.zip threeImageState.nv.volumes).filter
        (fun p => p.1.selected)).map (·.2) := by
  have h := C10_submit_registry_frame "r1" 0 threeImageState
    (by decide) (by decide) (by decide)
  exact ⟨h.1, h.2.2.2 (by decide)⟩

/-- Setting an entry of a list to its current value is the identity. -/
theorem set_getElem?_self {α : Type} (l : List α) (i : Nat) (a : α)
    (h : l[i]? = some a) : l.set i a = l := by
  apply List.ext_getElem?
  intro n
  rw [List.getElem?_set]
  by_cases hin : i = n
  · subst hin
    rcases List.getElem?_eq_some_iff.mp h with ⟨hlt, _⟩
    rw [if_pos rfl, if_pos hlt]
    exact h.symm
  · rw [if_neg hin]

/-- `setOpacity` never changes the id sequence of the volumes. -/
theorem setOpacityNv_map_id (nv : NvState) (oi : Option Nat) (op : Nat) :
    (setOpacityNv nv oi op).volumes.map (·.id) = nv.volumes.map (·.id) := by
  cases oi with
  | none => rfl
  | some i =>
    cases h : nv.volumes[i]? with
    | none => simp [setOpacityNv, h]
    | some v =>
      simp only [setOpacityNv, h]
      rw [List.map_set]
      exact set_getElem?_self _ i _ (by rw [List.getElem?_map, h]; rfl)

/-- `setOpacity` never redraws. -/
theorem setOpacityNv_redraw (nv : NvState) (oi : Option Nat) (op : Nat) :
    (setOpacityNv nv oi op).redrawCount = nv.redrawCount := by
  cases oi with
  | none => rfl
  | some i => cases h : nv.volumes[i]? <;> simp [setOpacityNv, h]

/-- `findIdx?` only depends on the searched projection of the list. -/
theorem findIdx?_congr_on_id :
    ∀ (l₁ l₂ : List Volume), l₁.map (·.id) = l₂.map (·.id) →
      ∀ (idStr : String) (i : Nat),
        List.findIdx? (fun v => v.id = idStr) l₁ i =
          List.findIdx? (fun v => v.id = idStr) l₂ i := by
  intro l₁
  induction l₁ with
  | nil =>
    intro l₂ h idStr i
    cases l₂ with
    | nil => rfl
    | cons b t₂ => simp at h
  | cons a t ih =>
    intro l₂ h idStr i
    cases l₂ with
    | nil => simp at h
    | cons b t₂ =>
      simp only [List.map_cons, List.cons.injEq] at h
      rw [List.findIdx?_cons, List.findIdx?_cons, h.1, ih t₂ h.2 idStr (i + 1)]

/-- Volume resolution by id only depends on the volumes' id sequence. -/
theorem getVolumeIndexByID_congr (nv₁ nv₂ : NvState)
    (h : nv₁.volumes.map (·.id) = nv₂.volumes.map (·.id)) (idStr : String) :
    getVolumeIndexByID nv₁ idStr = getVolumeIndexByID nv₂ idStr :=
  findIdx?_congr_on_id nv₁.volumes nv₂.volumes h idStr 0

/-- What a successful `findIdx?` found: an entry satisfying the
predicate, at the reported offset. -/
theorem findIdx?_some_prop :
    ∀ (l : List Volume) (idStr : String) (i j : Nat),
      List.findIdx? (fun v => v.id = idStr) l i = some j →
      i ≤ j ∧ ∃ v, l[j - i]? = some v ∧ v.id = idStr := by
  intro l
  induction l with
  | nil => intro idStr i j h; simp [List.findIdx?] at h
  | cons a t ih =>
    intro idStr i j h
    rw [List.findIdx?_cons] at h
    by_cases hp : a.id = idStr
    · rw [if_pos (by simp [hp])] at h
      have hij : i = j := Option.some.inj h
      subst hij
      exact ⟨Nat.le_refl i, a, by simp, hp⟩
    · rw [if_neg (by simp [hp])] at h
      rcases ih idStr (i + 1) j h with ⟨hle, v, hv, hid⟩
      refine ⟨by omega, v, ?_, hid⟩
      have hji : j - i = (j - (i + 1)) + 1 := by omega
      rw [hji, List.getElem?_cons_succ]
      exact hv

/-- The visibility loop never changes the volumes' id sequence. -/
theorem applyVis_map_id (active : Nat) :
    ∀ (imgs : List ImageFile) (pos : Nat) (nv : NvState),
      (applyVis active pos imgs nv).volumes.map (·.id) = nv.volumes.map (·.id) := by
  intro imgs
  induction imgs with
  | nil => intro pos nv; rfl
  | cons img rest ih =>
    intro pos nv
    show (applyVis active (pos + 1) rest _).volumes.map (·.id) = _
    rw [ih (pos + 1) _, setOpacityNv_map_id]

/-- The visibility loop itself never redraws (the single redraw comes
from the final `updateGLVolume`). -/
theorem applyVis_redraw (active : Nat) :
    ∀ (imgs : List ImageFile) (pos : Nat) (nv : NvState),
      (applyVis active pos imgs nv).redrawCount = nv.redrawCount := by
  intro imgs
  induction imgs with
  | nil => intro pos nv; rfl
  | cons img rest ih =>
    intro pos nv
    show (applyVis active (pos + 1) rest _).redrawCount = _
    rw [ih (pos + 1) _, setOpacityNv_redraw]

/-- A volume index that no listed image resolves to is left untouched by
the visibility loop. -/
theorem applyVis_untouched (active : Nat) :
    ∀ (imgs : List ImageFile) (pos : Nat) (nv : NvState) (k : Nat),
      (∀ img ∈ imgs, ¬getVolumeIndexByID nv img.id = some k) →
      (applyVis active pos imgs nv).volumes[k]? = nv.volumes[k]? := by
  intro imgs
  induction imgs with
  | nil => intro pos nv k _; rfl
  | cons img rest ih =>
    intro pos nv k hres
    show (applyVis active (pos + 1) rest
      (setOpacityNv nv (getVolumeIndexByID nv img.id)
        (if pos = active then 1 else 0))).volumes[k]? = _
    have hid1 := setOpacityNv_map_id nv (getVolumeIndexByID nv img.id)
      (if pos = active then 1 else 0)
    have hstep : (setOpacityNv nv (getVolumeIndexByID nv img.id)
        (if pos = active then 1 else 0)).volumes[k]? = nv.volumes[k]? := by
      cases hres0 : getVolumeIndexByID nv img.id with
      | none => simp [setOpacityNv, hres0]
      | some j =>
        have hjk : ¬j = k := fun hc =>
          hres img (List.mem_cons_self img rest) (by rw [hres0, hc])
        cases hv : nv.volumes[j]? with
        | none => simp [setOpacityNv, hres0, hv]
        | some v => simp [setOpacityNv, hres0, hv, List.getElem?_set_ne hjk]
    have hrest : ∀ img' ∈ rest,
        ¬getVolumeIndexByID (setOpacityNv nv (getVolumeIndexByID nv img.id)
          (if pos = active then 1 else 0)) img'.id = some k := by
      intro img' hm
      rw [getVolumeIndexByID_congr _ nv hid1]
      exact hres img' (List.mem_cons_of_mem img hm)
    rw [ih (pos + 1) _ k hrest, hstep]

/-- Main correctness of the visibility loop: with pairwise-distinct
image ids, all of them resolvable, the `j`-th listed image's volume
ends with opacity 1 when `pos + j` is the active index and 0 otherwise,
keeping its identity. -/
theorem applyVis_main (active : Nat) :
    ∀ (imgs : List ImageFile) (pos : Nat) (nv : NvState) (j : Nat) (hj : j < imgs.length),
      ((imgs.map (·.id)).Nodup) →
      (∀ img ∈ imgs, (getVolumeIndexByID nv img.id).isSome = true) →
      ∃ k, getVolumeIndexByID nv (imgs.get ⟨j, hj⟩).id = some k ∧
        (applyVis active pos imgs nv).volumes[k]? =
          (nv.volumes[k]?).map
            (fun v => { v with opacity := if pos + j = active then 1 else 0 }) := by
  intro imgs
  induction imgs with
  | nil => intro pos nv j hj; simp at hj
  | cons img rest ih =>
    intro pos nv j hj hnodup hres
    simp only [List.map_cons, List.nodup_cons] at hnodup
    cases hk0 : getVolumeIndexByID nv img.id with
    | none =>
      have hcontra := hres img (List.mem_cons_self img rest)
      rw [hk0] at hcontra
      simp at hcontra
    | some k0 =>
      rcases findIdx?_some_prop nv.volumes img.id 0 k0 hk0 with ⟨_, v0, hv0, hid0⟩
      rw [Nat.sub_zero] at hv0
      have hlt0 : k0 < nv.volumes.length := (List.getElem?_eq_some_iff.mp hv0).1
      have hsetvol : (setOpacityNv nv (some k0) (if pos = active then 1 else 0)).volumes =
          nv.volumes.set k0 { v0 with opacity := if pos = active then 1 else 0 } := by
        simp [setOpacityNv, hv0]
      have hid1 : (setOpacityNv nv (some k0)
            (if pos = active then 1 else 0)).volumes.map (·.id) =
          nv.volumes.map (·.id) := setOpacityNv_map_id nv (some k0) _
      cases j with
      | zero =>
        refine ⟨k0, hk0, ?_⟩
        show (applyVis active (pos + 1) rest
          (setOpacityNv nv (getVolumeIndexByID nv img.id)
            (if pos = active then 1 else 0))).volumes[k0]? = _
        rw [hk0]
        have hun : ∀ img' ∈ rest,
            ¬getVolumeIndexByID (setOpacityNv nv (some k0)
              (if pos = active then 1 else 0)) img'.id = some k0 := by
          intro img' hm' hceq
          rw [getVolumeIndexByID_congr _ nv hid1] at hceq
          rcases findIdx?_some_prop nv.volumes img'.id 0 k0 hceq with ⟨_, v0', hv0', hid0'⟩
          rw [Nat.sub_zero, hv0] at hv0'
          have hvv : v0 = v0' := Option.some.inj hv0'
          apply hnodup.1
          rw [show img.id = img'.id from by rw [← hid0, hvv, hid0']]
          exact List.mem_map_of_mem (·.id) hm'
        rw [applyVis_untouched active rest (pos + 1) _ k0 hun, hsetvol,
          List.getElem?_set, if_pos rfl, if_pos hlt0, hv0]
        simp
      | succ j' =>
        have hres1 : ∀ img' ∈ rest, (getVolumeIndexByID (setOpacityNv nv (some k0)
            (if pos = active then 1 else 0)) img'.id).isSome = true := by
          intro img' hm'
          rw [getVolumeIndexByID_congr _ nv hid1]
          exact hres img' (List.mem_cons_of_mem img hm')
        have hj' : j' < rest.length := by
          simp only [List.length_cons] at hj
          omega
        rcases ih (pos + 1) (setOpacityNv nv (some k0) (if pos = active then 1 else 0))
          j' hj' hnodup.2 hres1 with ⟨k, hk, hvol⟩
        rw [getVolumeIndexByID_congr _ nv hid1] at hk
        have hkk0 : ¬k0 = k := by
          intro hc
          subst hc
          rcases findIdx?_some_prop nv.volumes (rest.get ⟨j', hj'⟩).id 0 k0 hk with
            ⟨_, w, hw, hwid⟩
          rw [Nat.sub_zero, hv0] at hw
          have hvw : v0 = w := Option.some.inj hw
          apply hnodup.1
          rw [show img.id = (rest.get ⟨j', hj'⟩).id from by rw [← hid0, hvw, hwid]]
          exact List.mem_map_of_mem (·.id) (rest.get_mem j' hj')
        refine ⟨k, hk, ?_⟩
        show (applyVis active (pos + 1) rest
          (setOpacityNv nv (getVolumeIndexByID nv img.id)
            (if pos = active then 1 else 0))).volumes[k]? = _
        rw [hk0]
        rw [getVolumeIndexByID_congr nv _ hid1.symm] at hk
        rw [hvol, hsetvol, List.getElem?_set_ne hkk0]
        have harith : pos + 1 + j' = pos + (j' + 1) := by omega
        rw [harith]

/-- `setOpacity` reads and writes only the volume list. -/
theorem setOpacityNv_volumes_congr (nv₁ nv₂ : NvState) (h : nv₁.volumes = nv₂.volumes)
    (oi : Option Nat) (op : Nat) :
    (setOpacityNv nv₁ oi op).volumes = (setOpacityNv nv₂ oi op).volumes := by
  cases oi with
  | none => exact h
  | some i => cases hv : nv₂.volumes[i]? <;> simp [setOpacityNv, h, hv]

/-- The visibility loop reads and writes only the volume list. -/
theorem applyVis_volumes_congr (active : Nat) :
    ∀ (imgs : List ImageFile) (pos : Nat) (nv₁ nv₂ : NvState),
      nv₁.volumes = nv₂.volumes →
      (applyVis active pos imgs nv₁).volumes = (applyVis active pos imgs nv₂).volumes := by
  intro imgs
  induction imgs with
  | nil => intro pos nv₁ nv₂ h; exact h
  | cons img rest ih =>
    intro pos nv₁ nv₂ h
    show (applyVis active (pos + 1) rest _).volumes = (applyVis active (pos + 1) rest _).volumes
    apply ih
    have hresv : getVolumeIndexByID nv₁ img.id = getVolumeIndexByID nv₂ img.id := by
      unfold getVolumeIndexByID
      rw [h]
    rw [hresv]
    exact setOpacityNv_volumes_congr _ _ h _ _

/-- Running the visibility loop twice yields the same volume list as
running it once. -/
theorem applyVis_idem (active : Nat) (imgs : List ImageFile) (nv : NvState)
    (hnodup : (imgs.map (·.id)).Nodup)
    (hres : ∀ img ∈ imgs, (getVolumeIndexByID nv img.id).isSome = true) :
    (applyVis active 0 imgs (applyVis active 0 imgs nv)).volumes =
      (applyVis active 0 imgs nv).volumes := by
  apply List.ext_getElem?
  intro k
  have hidmap := applyVis_map_id active imgs 0 nv
  by_cases hex : ∃ j : Fin imgs.length, getVolumeIndexByID nv (imgs.get j).id = some k
  · rcases hex with ⟨⟨j, hj⟩, hjk⟩
    rcases applyVis_main active imgs 0 nv j hj hnodup hres with ⟨k₁, hk₁, hvol₁⟩
    have hk1k : k₁ = k := Option.some.inj (hk₁.symm.trans hjk)
    subst hk1k
    have hres2 : ∀ img ∈ imgs,
        (getVolumeIndexByID (applyVis active 0 imgs nv) img.id).isSome = true := by
      intro img hm
      rw [getVolumeIndexByID_congr _ nv hidmap]
      exact hres img hm
    rcases applyVis_main active imgs 0 (applyVis active 0 imgs nv) j hj hnodup hres2 with
      ⟨k₂, hk₂, hvol₂⟩
    rw [getVolumeIndexByID_congr _ nv hidmap] at hk₂
    have hk2k : k₂ = k₁ := Option.some.inj (hk₂.symm.trans hjk)
    subst hk2k
    rw [hvol₂, hvol₁]
    cases nv.volumes[k₂]? <;> rfl
  · push_neg at hex
    have hun2 : ∀ img ∈ imgs,
        ¬getVolumeIndexByID (applyVis active 0 imgs nv) img.id = some k := by
      intro img hm
      rw [getVolumeIndexByID_congr _ nv hidmap]
      rcases List.mem_iff_get.mp hm with ⟨jf, hjeq⟩
      rw [← hjeq]
      exact hex jf
    rw [applyVis_untouched active imgs 0 _ k hun2]

/-- C9: with pairwise-distinct image ids all resolvable in the renderer,
`setActive(i)` sets the cursor to `i`, triggers exactly one redraw, and
leaves the volume resolved from each image's id with opacity 1 for the
image at `i` and 0 for every other image; repeating the call with the
same index reproduces the same volume state without error. -/
theorem C9_setActive (s : AppState) (i j : Nat)
    (_hi : i < s.images.length) (hj : j < s.images.length)
    (hnodup : (s.images.map (·.id)).Nodup)
    (hres : ∀ img ∈ s.images, (getVolumeIndexByID s.nv img.id).isSome = true) :
    (handleVisibility i s).currentImageIndex = some i ∧
    (handleVisibility i s).nv.redrawCount = s.nv.redrawCount + 1 ∧
    volumeOpacityById (handleVisibility i s).nv (s.images.get ⟨j, hj⟩).id =
      some (if j = i then 1 else 0) ∧
    (handleVisibility i (handleVisibility i s)).nv.volumes =
      (handleVisibility i s).nv.volumes := by
  refine ⟨rfl, ?_, ?_, ?_⟩
  · show (applyVis i 0 s.images s.nv).redrawCount + 1 = _
    rw [applyVis_redraw]
  · rcases applyVis_main i s.images 0 s.nv j hj hnodup hres with ⟨k, hk, hvol⟩
    have hrw : volumeOpacityById (handleVisibility i s).nv (s.images.get ⟨j, hj⟩).id =
        (getVolumeIndexByID (applyVis i 0 s.images s.nv) (s.images.get ⟨j, hj⟩).id).bind
          (fun k0 => ((applyVis i 0 s.images s.nv).volumes[k0]?).map (·.opacity)) := rfl
    rw [hrw, getVolumeIndexByID_congr _ s.nv (applyVis_map_id i s.images 0 s.nv), hk]
    simp only [Option.some_bind]
    rw [hvol]
    rcases findIdx?_some_prop s.nv.volumes (s.images.get ⟨j, hj⟩).id 0 k hk with
      ⟨_, v, hv, _⟩
    rw [Nat.sub_zero] at hv
    rw [hv]
    simp
  · show (applyVis i 0 s.images
      { applyVis i 0 s.images s.nv with
        redrawCount := (applyVis i 0 s.images s.nv).redrawCount + 1 }).volumes =
      (applyVis i 0 s.images s.nv).volumes
    exact (applyVis_volumes_congr i s.images 0
      { applyVis i 0 s.images s.nv with
        redrawCount := (applyVis i 0 s.images s.nv).redrawCount + 1 }
      (applyVis i 0 s.images s.nv) rfl).trans
      (applyVis_idem i s.images s.nv hnodup hres)

/-- C9, witness: the theorem applied to the concrete two-image state
with active index 0; image 1's volume ("b") ends with opacity 0. -/
theorem C9_setActive_witness :
    (handleVisibility 0 twoImageState).currentImageIndex = some 0 ∧
    (handleVisibility 0 twoImageState).nv.redrawCount = twoImageState.nv.redrawCount + 1 ∧
    volumeOpacityById (handleVisibility 0 twoImageState).nv "b" = some 0 ∧
    (handleVisibility 0 (handleVisibility 0 twoImageState)).nv.volumes =
      (handleVisibility 0 twoImageState).nv.volumes := by
  have h := C9_setActive twoImageState 0 1 (by decide) (by decide) (by decide) (by decide)
  exact ⟨h.1, h.2.1, h.2.2.1, h.2.2.2⟩
